import Mathlib

/-!
Shallow embedding of the entech-chat catalog extraction pipeline.

Strings are modelled as `List Char`.  The regular-expression searches of
`pdf_to_json.parse_line` / `excel_to_json.parse_sheet` are embedded as
left-to-right scans (`scanO`) of per-position matchers, which is exactly
Python `re.search` semantics for these patterns (each pattern starts with
`\d+` or a literal, and no token alternative can begin inside a digit run,
so no backtracking over the digit run is ever needed).

Python `str.lower`/`str.upper`/`re.IGNORECASE` are modelled for the Latin
and Cyrillic alphabets (the only letters appearing in the patterns);
`\d` is modelled as the ASCII digits and `\s` as the ASCII whitespace
class, which covers every token the patterns recognise.
-/

/-- Python `str.lower` restricted to Latin and Cyrillic letters. -/
def pyLower (c : Char) : Char :=
  if 65 ≤ c.toNat && c.toNat ≤ 90 then Char.ofNat (c.toNat + 32)
  else if 1040 ≤ c.toNat && c.toNat ≤ 1071 then Char.ofNat (c.toNat + 32)
  else if c.toNat == 1025 then Char.ofNat 1105
  else c

/-- Python `str.upper` restricted to Latin and Cyrillic letters. -/
def pyUpper (c : Char) : Char :=
  if 97 ≤ c.toNat && c.toNat ≤ 122 then Char.ofNat (c.toNat - 32)
  else if 1072 ≤ c.toNat && c.toNat ≤ 1103 then Char.ofNat (c.toNat - 32)
  else if c.toNat == 1105 then Char.ofNat 1025
  else c

/-- ASCII whitespace, the `\s` class as it occurs in the catalog texts. -/
def pyIsSpace (c : Char) : Bool :=
  c.toNat == 32 || c.toNat == 9 || c.toNat == 10 || c.toNat == 13 ||
    c.toNat == 11 || c.toNat == 12

/-- The `\d` class (ASCII digits). -/
def isDigitC (c : Char) : Bool := 48 ≤ c.toNat && c.toNat ≤ 57

/-- Value of `int()` on a digit run. -/
def natOfDigits (ds : List Char) : Nat :=
  ds.foldl (fun n c => 10 * n + (c.toNat - 48)) 0

/-- Boolean list-head test: `pat` occurs at the start of `t`. -/
def isPrefixB : List Char → List Char → Bool
  | [], _ => true
  | _ :: _, [] => false
  | p :: ps, c :: cs => p == c && isPrefixB ps cs

/-- Python `pat in text` (substring containment). -/
def containsTok (pat : List Char) : List Char → Bool
  | [] => isPrefixB pat []
  | c :: cs => isPrefixB pat (c :: cs) || containsTok pat cs

/-- Search scan of `re.search`: try the positional matcher `f` at every suffix,
left to right, returning the first hit (leftmost-match semantics). -/
def scanO {α : Type} (f : List Char → Option α) : List Char → Option α
  | [] => f []
  | c :: cs =>
    match f (c :: cs) with
    | some v => some v
    | none => scanO f cs

/-- Python `str.strip`. -/
def stripL (l : List Char) : List Char :=
  ((l.dropWhile pyIsSpace).reverse.dropWhile pyIsSpace).reverse

/- Unit tokens (already lowercase; matching is done on lowered text). -/

def tokVt : List Char := ['в', 'т']
def tokW : List Char := ['w']
def tokLmC : List Char := ['л', 'м']
def tokLmL : List Char := ['l', 'm']
def tokMmC : List Char := ['м', 'м']
def tokMmL : List Char := ['m', 'm']
def tokKgC : List Char := ['к', 'г']
def tokKgL : List Char := ['k', 'g']

def powUnitsPdf : List (List Char) := [tokVt, tokW]
def lumUnitsPdf : List (List Char) := [tokLmC, tokLmL]
def mmUnits : List (List Char) := [tokMmC, tokMmL]
def kgUnits : List (List Char) := [tokKgC, tokKgL]

/-- Some token of `us` occurs at the start of `t`. -/
def anyTokAt (us : List (List Char)) (t : List Char) : Bool :=
  us.any (fun u => isPrefixB u t)

/-- Optional single blank (`\s?`) then the continuation `u` (pdf patterns). -/
def optWsThen (u : List Char → Bool) (t : List Char) : Bool :=
  u t ||
    (match t with
     | c :: r => pyIsSpace c && u r
     | [] => false)

/-- Match of `\s?(u1|u2|...)` at the start of `t`. -/
def afterOpt1 (us : List (List Char)) (t : List Char) : Bool :=
  optWsThen (anyTokAt us) t

/-- Match of `\s*(u1|u2|...)` at the start of `t` (the excel patterns). -/
def afterStar (us : List (List Char)) (t : List Char) : Bool :=
  anyTokAt us (t.dropWhile pyIsSpace)

/-- Positional matcher for `(\d+)` followed by `after`; group(1) as a Nat.
Shortening the greedy digit run leaves a digit in front of `after`, which no
unit alternative can consume, so no backtracking is needed. -/
def numTokAt (after : List Char → Bool) (t : List Char) : Option Nat :=
  let ds := t.takeWhile isDigitC
  if ds.isEmpty then none
  else if after (t.drop ds.length) then some (natOfDigits ds) else none

/-- Positional matcher for `IP\d{2}` (on lowered text), already normalised
to the uppercase `IPnn` form both pipelines produce. -/
def ipAt : List Char → Option (List Char)
  | c1 :: c2 :: d1 :: d2 :: _ =>
    if c1 == 'i' && c2 == 'p' && isDigitC d1 && isDigitC d2 then
      some ['I', 'P', d1, d2]
    else none
  | _ => none

/-- Characters admitted by `[^\s,]*` in the model pattern. -/
def keepModelChar (c : Char) : Bool := !pyIsSpace c && !(c == ',')

/-- Positional matcher for `(ENTECH[^\s,]*)` with `re.IGNORECASE`;
runs on the raw line so the group keeps the original casing. -/
def modelAt : List Char → Option (List Char)
  | c1 :: c2 :: c3 :: c4 :: c5 :: c6 :: rest =>
    if pyLower c1 == 'e' && pyLower c2 == 'n' && pyLower c3 == 't' &&
        pyLower c4 == 'e' && pyLower c5 == 'c' && pyLower c6 == 'h' then
      some (c1 :: c2 :: c3 :: c4 :: c5 :: c6 :: rest.takeWhile keepModelChar)
    else none
  | _ => none

/-- Positional matcher for `(\d+)[x×](\d+)[x×](\d+)\s?(мм|mm)`. -/
def dimsAt (t : List Char) : Option (Nat × Nat × Nat) :=
  let d1 := t.takeWhile isDigitC
  if d1.isEmpty then none
  else
    match t.drop d1.length with
    | s1 :: r1 =>
      if s1 == 'x' || s1 == '×' then
        let d2 := r1.takeWhile isDigitC
        if d2.isEmpty then none
        else
          match r1.drop d2.length with
          | s2 :: r2 =>
            if s2 == 'x' || s2 == '×' then
              let d3 := r2.takeWhile isDigitC
              if d3.isEmpty then none
              else if afterOpt1 mmUnits (r2.drop d3.length) then
                some (natOfDigits d1, natOfDigits d2, natOfDigits d3)
              else none
            else none
          | [] => none
      else none
    | [] => none

/-- Positional matcher for `(\d+([.,]\d+)?)\s?(кг|kg)`; returns the group(1)
numeral with `,` already replaced by `.` (the argument Python passes to
`float`, whose floating-point value is outside this model).  The optional
fraction is greedy and backtracks to the integer-only reading. -/
def weightAt (t : List Char) : Option (List Char) :=
  let ds := t.takeWhile isDigitC
  if ds.isEmpty then none
  else
    let rest := t.drop ds.length
    let noFrac : Option (List Char) :=
      if afterOpt1 kgUnits rest then some ds else none
    match rest with
    | s :: r2 =>
      if s == '.' || s == ',' then
        let fs := r2.takeWhile isDigitC
        if !fs.isEmpty && afterOpt1 kgUnits (r2.drop fs.length) then
          some (ds ++ '.' :: fs)
        else noFrac
      else noFrac
    | [] => noFrac

/-- The `(лет|года|г.)` alternation (`.` matches any char except newline). -/
def yearTokAt (t : List Char) : Bool :=
  isPrefixB ['л', 'е', 'т'] t || isPrefixB ['г', 'о', 'д', 'а'] t ||
    (match t with
     | c :: d :: _ => c == 'г' && !(d == '\n')
     | _ => false)

/-- The ordered category vocabulary of `parse_line`. -/
def categoriesL : List (List Char) :=
  ["промышленный".toList, "уличный".toList, "офисный".toList,
   "спортивный".toList, "взрывозащищенный".toList, "прожектор".toList]

/-- Three-axis dimensions object. -/
structure DimsMM where
  length_mm : Nat
  width_mm : Nat
  height_mm : Nat
deriving DecidableEq

/- Field extractors of `pdf_to_json.parse_line`. -/

def pdfPower (line : List Char) : Option Nat :=
  scanO (numTokAt (afterOpt1 powUnitsPdf)) (line.map pyLower)

def pdfLumens (line : List Char) : Option Nat :=
  scanO (numTokAt (afterOpt1 lumUnitsPdf)) (line.map pyLower)

def pdfIp (line : List Char) : Option (List Char) :=
  scanO ipAt (line.map pyLower)

def pdfCategory (line : List Char) : Option (List Char) :=
  categoriesL.find? (fun c => containsTok c (line.map pyLower))

def pdfModel (line : List Char) : Option (List Char) :=
  scanO modelAt line

def pdfDims (line : List Char) : Option DimsMM :=
  (scanO dimsAt (line.map pyLower)).map (fun v => ⟨v.1, v.2.1, v.2.2⟩)

def pdfWeight (line : List Char) : Option (List Char) :=
  scanO weightAt (line.map pyLower)

def pdfWarranty (line : List Char) : Option Nat :=
  scanO (numTokAt (optWsThen yearTokAt)) (line.map pyLower)

/-- One record of `pdf_to_json.parse_line`. -/
structure PdfItem where
  raw : List Char
  model : Option (List Char)
  power_w : Option Nat
  lumens : Option Nat
  ip_rating : Option (List Char)
  category : Option (List Char)
  dimensions_mm : Option DimsMM
  weight_kg : Option (List Char)
  warranty_years : Option Nat
deriving DecidableEq

/-- Embedding of `pdf_to_json.parse_line`. -/
def parse_line (line : List Char) : PdfItem :=
  { raw := stripL line
    model := pdfModel line
    power_w := pdfPower line
    lumens := pdfLumens line
    ip_rating := pdfIp line
    category := pdfCategory line
    dimensions_mm := pdfDims line
    weight_kg := pdfWeight line
    warranty_years := pdfWarranty line }

/-- The line filter of `pdf_to_json`: `re.search(r'(Вт|W|лм|lm|IP\d{2})', …,
re.IGNORECASE)` as an existence check. -/
def hasCatalogTok (line : List Char) : Bool :=
  let lt := line.map pyLower
  containsTok tokVt lt || containsTok tokW lt || containsTok tokLmC lt ||
    containsTok tokLmL lt || (scanO ipAt lt).isSome

/-- The per-line accumulation loop of `pdf_to_json` over the lines of the
document (page splitting kept upstream). -/
def pdfRecords (lines : List (List Char)) : List PdfItem :=
  lines.foldl
    (fun cat line => if hasCatalogTok line then cat ++ [parse_line line] else cat)
    []

/- ------------------------------------------------------------------ -/
/- excel_to_json.py                                                    -/
/- ------------------------------------------------------------------ -/

/-- A spreadsheet cell as `iter_rows(values_only=True)` yields it
(text cells only; numeric cells are outside this model). -/
abbrev Cell := Option (List Char)

abbrev XlRow := List Cell

/-- Text of `str(cell)` for a truthy cell, and of `str(cell or '')`. -/
def cellStr : Cell → List Char
  | none => []
  | some s => s

/-- Python truthiness of a cell (`None` and `''` are falsy). -/
def cellTruthy : Cell → Bool
  | none => false
  | some s => !s.isEmpty

/-- Search `re.search(r'(\d+)\s*вт', specs_lower)` of `parse_sheet`. -/
def xlPower (specs : List Char) : Option Nat :=
  scanO (numTokAt (afterStar [tokVt])) (specs.map pyLower)

/-- Search `re.search(r'(\d+)\s*лм', specs_lower)` of `parse_sheet`. -/
def xlLumens (specs : List Char) : Option Nat :=
  scanO (numTokAt (afterStar [tokLmC])) (specs.map pyLower)

/-- Search `re.search(r'ip(\d{2})', specs_lower)` with the uppercase rebuild. -/
def xlIp (specs : List Char) : Option (List Char) :=
  scanO ipAt (specs.map pyLower)

/-- Word characters of `\w` over the alphabets in use. -/
def isWordC (c : Char) : Bool :=
  isDigitC c || (97 ≤ c.toNat && c.toNat ≤ 122) || (65 ≤ c.toNat && c.toNat ≤ 90) ||
    c == '_' || (1072 ≤ c.toNat && c.toNat ≤ 1103) ||
    (1040 ≤ c.toNat && c.toNat ≤ 1071) || c.toNat == 1105 || c.toNat == 1025

/-- Collapse runs of `-` left by the character-wise `\W` replacement. -/
def collapseD : List Char → List Char
  | [] => []
  | [c] => [c]
  | c1 :: c2 :: rest =>
    if c1 == '-' && c2 == '-' then collapseD (c2 :: rest)
    else c1 :: collapseD (c2 :: rest)

/-- Substitution `re.sub(r'[\W]+', '-', s)`: each maximal run of non-word characters
becomes one dash. -/
def sanitize (l : List Char) : List Char :=
  collapseD (l.map (fun c => if isWordC c then c else '-'))

def urlStem : List Char := "https://ene-rgy.ru/images/".toList

/-- One record built by `excel_to_json.parse_sheet`. -/
structure XlItem where
  model : List Char
  name : List Char
  power_w : Option Nat
  lumens : Option Nat
  ip_rating : Option (List Char)
  category : List Char
  image_url : List Char
  raw : List Char
deriving DecidableEq

/-- The body of the row loop of `parse_sheet`: `continue` = `none`. -/
def parseRow (sheetName : List Char) (row : XlRow) : Option XlItem :=
  match row with
  | c0 :: _ :: c2 :: _ =>
    if cellTruthy c0 then
      let model := stripL (cellStr c0)
      if model.isEmpty || !containsTok ['N', 'R', 'G'] (model.map pyUpper) then none
      else
        let specs := cellStr c2
        some
          { model := model
            name := model
            power_w := xlPower specs
            lumens := xlLumens specs
            ip_rating := xlIp specs
            category := sheetName.map pyLower
            image_url := urlStem ++ sanitize (model.map pyLower) ++ ['.', 'j', 'p', 'g']
            raw := specs.take 200 }
    else none
  | _ => none

/-- Embedding of `excel_to_json.parse_sheet`. -/
def parse_sheet (rows : List XlRow) (sheetName : List Char) : List XlItem :=
  rows.filterMap (parseRow sheetName)

/-- One step of building `{item['model']: item for item in catalog}`:
a fresh key is appended, a repeated key overwrites the stored record
in place (CPython dicts preserve the original insertion position). -/
def dedupIns (acc : List XlItem) (it : XlItem) : List XlItem :=
  if acc.any (fun x => x.model == it.model) then
    acc.map (fun x => if x.model == it.model then it else x)
  else acc ++ [it]

/-- Embedding of the dict-comprehension deduplication over the model key. -/
def dedupXl (l : List XlItem) : List XlItem := l.foldl dedupIns []

/-- Embedding of `excel_to_json`: when the backing file is missing the function prints
the candidate files of the working directory and returns before any
output is produced; otherwise every sheet is parsed, concatenated and
deduplicated, and the result is serialised.  The filesystem is passed
explicitly: the `Bool` is `Path(excel_path).exists()` and the list is
`Path('.').glob('*')`. -/
def excel_to_json (inputExists : Bool) (dirFiles : List (List Char))
    (sheets : List (List Char × List XlRow)) :
    Except (List (List Char)) (List XlItem) :=
  if inputExists then
    Except.ok (dedupXl (sheets.foldl (fun cat s => cat ++ parse_sheet s.2 s.1) []))
  else Except.error dirFiles

/- ------------------------------------------------------------------ -/
/- extract_catalog.py / extract_catalog_base64.py: the image loop      -/
/- ------------------------------------------------------------------ -/

/-- One embedded image with its structural anchor, as read off
`img.anchor._from` (payload abstracted to its bytes). -/
structure Anchor where
  row : Nat
  col : Nat
  payload : List Nat
deriving DecidableEq

/-- The module-level image loop of both extract scripts: walk the anchor
list in discovery order and take the first whose `(row, col)` equals the
target row and the configured image column, then `break`. -/
def findAnchor (anchors : List Anchor) (targetRow imgCol : Nat) : Option Anchor :=
  anchors.find? (fun a => a.row == targetRow && a.col == imgCol)

/- ------------------------------------------------------------------ -/
/- Specification-side views used to state the claims                   -/
/- ------------------------------------------------------------------ -/

/-- The effect of one dict insertion on the key sequence. -/
def keyIns (ks : List (List Char)) (k : List Char) : List (List Char) :=
  if k ∈ ks then ks else ks ++ [k]

/-- A key sequence with every repetition of a key after its first
occurrence removed: the output key order the Deduplicator must produce. -/
def firstKeys : List (List Char) → List (List Char)
  | [] => []
  | k :: ks => k :: firstKeys (ks.filter (fun x => !(x == k)))
termination_by l => l.length
decreasing_by
simp only [List.length_cons]
exact Nat.lt_succ_of_le (List.length_filter_le _ _)

/-- The last record of the sequence carrying the key `k`: the record whose
field values the Deduplicator must keep for `k`. -/
def lastOcc (k : List Char) : List XlItem → Option XlItem
  | [] => none
  | x :: xs =>
    match lastOcc k xs with
    | some v => some v
    | none => if x.model == k then some x else none

/-- A row that carries an identifier: its first cell is truthy. -/
def rowHasId : XlRow → Bool
  | [] => false
  | c :: _ => cellTruthy c

/-- A minimal record with the given key and power, for concrete scenarios. -/
def mkX (m : String) (p : Option Nat) : XlItem :=
  { model := m.toList
    name := m.toList
    power_w := p
    lumens := none
    ip_rating := none
    category := []
    image_url := []
    raw := [] }

/-- The duplicate-key scenario of the spec: NRG-A appears at position 3
with power 50 and again at position 10 with power 80. -/
def dupInput : List XlItem :=
  [mkX "B0" none, mkX "B1" none, mkX "B2" none, mkX "NRG-A" (some 50),
   mkX "B4" none, mkX "B5" none, mkX "B6" none, mkX "B7" none,
   mkX "B8" none, mkX "B9" none, mkX "NRG-A" (some 80)]

/-- A text line longer than 200 characters that passes the token filter. -/
def longLine : List Char := 'W' :: List.replicate 200 'a'

/-- A text-mode input line with a power token but no ENTECH model token. -/
def noModelLine : List Char := "100Вт".toList

/-- A spreadsheet row with a model but an empty spec cell. -/
def plainRow : XlRow := [some "NRG-1".toList, none, some []]

/-- A spreadsheet row whose spec cell reads `100W` (Latin unit). -/
def rowLatinW : XlRow := [some "NRG-1".toList, none, some "100W".toList]

/-- The record `parse_sheet` builds from `plainRow` on a sheet named `S`. -/
def itemPlain : XlItem :=
  { model := "NRG-1".toList
    name := "NRG-1".toList
    power_w := none
    lumens := none
    ip_rating := none
    category := ['s']
    image_url := urlStem ++ "nrg-1".toList ++ ['.', 'j', 'p', 'g']
    raw := [] }

/-- Three anchors in discovery order, the last two on the same cell. -/
def anchors3 : List Anchor := [⟨0, 0, [1]⟩, ⟨5, 1, [2]⟩, ⟨5, 1, [3]⟩]

/- ------------------------------------------------------------------ -/
/- Generic lemmas: scan (re.search) and find? (first-match loops)      -/
/- ------------------------------------------------------------------ -/

theorem scanO_some_iff {α : Type} (f : List Char → Option α) (v : α) (s : List Char) :
    scanO f s = some v ↔
      ∃ i, i ≤ s.length ∧ f (s.drop i) = some v ∧ ∀ j, j < i → f (s.drop j) = none := by
  induction s with
  | nil =>
    constructor
    · intro h
      exact ⟨0, Nat.le_refl 0, h, fun j hj => absurd hj (Nat.not_lt_zero j)⟩
    · rintro ⟨i, hi, hf, -⟩
      have hiz : i = 0 := Nat.le_zero.mp hi
      subst hiz
      exact hf
  | cons c cs ih =>
    cases h0 : f (c :: cs) with
    | some w =>
      have hs : scanO f (c :: cs) = some w := by simp [scanO, h0]
      rw [hs]
      constructor
      · intro h
        have hw : w = v := by injection h
        subst hw
        exact ⟨0, Nat.zero_le _, h0, fun j hj => absurd hj (Nat.not_lt_zero j)⟩
      · rintro ⟨i, hi, hf, hmin⟩
        cases i with
        | zero =>
          simp only [List.drop_zero] at hf
          rw [h0] at hf
          exact hf
        | succ i' =>
          have h00 := hmin 0 (Nat.succ_pos i')
          simp only [List.drop_zero] at h00
          rw [h0] at h00
          exact absurd h00 (by simp)
    | none =>
      have hs : scanO f (c :: cs) = scanO f cs := by simp [scanO, h0]
      rw [hs, ih]
      constructor
      · rintro ⟨i, hi, hf, hmin⟩
        refine ⟨i + 1, Nat.succ_le_succ hi, by simpa using hf, ?_⟩
        intro j hj
        cases j with
        | zero => simpa using h0
        | succ j' =>
          have := hmin j' (Nat.lt_of_succ_lt_succ hj)
          simpa using this
      · rintro ⟨i, hi, hf, hmin⟩
        cases i with
        | zero =>
          simp only [List.drop_zero] at hf
          rw [h0] at hf
          exact absurd hf (by simp)
        | succ i' =>
          refine ⟨i', Nat.le_of_succ_le_succ hi, by simpa using hf, ?_⟩
          intro j hj
          have := hmin (j + 1) (Nat.succ_lt_succ hj)
          simpa using this

theorem scanO_isSome_iff {α : Type} (f : List Char → Option α) (s : List Char) :
    (scanO f s).isSome = true ↔ ∃ i, i ≤ s.length ∧ (f (s.drop i)).isSome = true := by
  induction s with
  | nil =>
    constructor
    · intro h
      exact ⟨0, Nat.le_refl 0, h⟩
    · rintro ⟨i, hi, hf⟩
      have hiz : i = 0 := Nat.le_zero.mp hi
      subst hiz
      exact hf
  | cons c cs ih =>
    cases h0 : f (c :: cs) with
    | some w =>
      have hs : scanO f (c :: cs) = some w := by simp [scanO, h0]
      simp only [hs, Option.isSome_some, true_iff]
      exact ⟨0, Nat.zero_le _, by simp [h0]⟩
    | none =>
      have hs : scanO f (c :: cs) = scanO f cs := by simp [scanO, h0]
      rw [hs, ih]
      constructor
      · rintro ⟨i, hi, hf⟩
        exact ⟨i + 1, Nat.succ_le_succ hi, by simpa using hf⟩
      · rintro ⟨i, hi, hf⟩
        cases i with
        | zero =>
          simp only [List.drop_zero] at hf
          rw [h0] at hf
          exact absurd hf (by simp)
        | succ i' =>
          exact ⟨i', Nat.le_of_succ_le_succ hi, by simpa using hf⟩

theorem scanO_eq_none_iff {α : Type} (f : List Char → Option α) (s : List Char) :
    scanO f s = none ↔ ∀ i, i ≤ s.length → f (s.drop i) = none := by
  constructor
  · intro h i hi
    by_contra hne
    have h1 : (f (s.drop i)).isSome = true := Option.ne_none_iff_isSome.mp hne
    have h2 : (scanO f s).isSome = true := (scanO_isSome_iff f s).mpr ⟨i, hi, h1⟩
    rw [h] at h2
    exact absurd h2 (by simp)
  · intro h
    by_contra hne
    have h1 : (scanO f s).isSome = true := Option.ne_none_iff_isSome.mp hne
    obtain ⟨i, hi, hf⟩ := (scanO_isSome_iff f s).mp h1
    rw [h i hi] at hf
    exact absurd hf (by simp)

theorem find?_first_index {α : Type} (p : α → Bool) :
    ∀ (l : List α) (a : α), l.find? p = some a →
      p a = true ∧ ∃ i, ∃ h : i < l.length, l.get ⟨i, h⟩ = a ∧
        ∀ j, ∀ hj : j < l.length, j < i → p (l.get ⟨j, hj⟩) = false := by
  intro l
  induction l with
  | nil => intro a h; simp [List.find?] at h
  | cons x xs ih =>
    intro a h
    rw [List.find?_cons] at h
    cases hp : p x with
    | true =>
      simp only [hp] at h
      have hxa : x = a := by injection h
      subst hxa
      exact ⟨hp, 0, Nat.succ_pos _, rfl, fun j hj hj0 => absurd hj0 (Nat.not_lt_zero j)⟩
    | false =>
      simp only [hp] at h
      obtain ⟨hpa, i, hi, hget, hmin⟩ := ih a h
      refine ⟨hpa, i + 1, Nat.succ_lt_succ hi, by simpa using hget, ?_⟩
      intro j hj hji
      cases j with
      | zero => simpa using hp
      | succ j' =>
        have hj' : j' < xs.length := Nat.lt_of_succ_lt_succ hj
        have := hmin j' hj' (Nat.lt_of_succ_lt_succ hji)
        simpa using this

/- ------------------------------------------------------------------ -/
/- Deduplicator lemmas                                                 -/
/- ------------------------------------------------------------------ -/

theorem dedupIns_map_model (acc : List XlItem) (it : XlItem) :
    (dedupIns acc it).map XlItem.model = keyIns (acc.map XlItem.model) it.model := by
  unfold dedupIns keyIns
  by_cases h : it.model ∈ acc.map XlItem.model
  · have hany : (acc.any fun x => x.model == it.model) = true := by
      rw [List.any_eq_true]
      obtain ⟨x, hx, hxm⟩ := List.mem_map.mp h
      exact ⟨x, hx, by simp [hxm]⟩
    simp only [hany, if_true, h, List.map_map]
    apply List.map_congr_left
    intro x hx
    by_cases hxm : x.model = it.model
    · simp [Function.comp, hxm]
    · simp [Function.comp, hxm]
  · have hany : (acc.any fun x => x.model == it.model) = false := by
      rw [← Bool.not_eq_true, List.any_eq_true]
      rintro ⟨x, hx, hxm⟩
      exact h (List.mem_map.mpr ⟨x, hx, by simpa using hxm⟩)
    simp [hany, h]

theorem foldl_dedupIns_map (l : List XlItem) : ∀ acc : List XlItem,
    (l.foldl dedupIns acc).map XlItem.model =
      (l.map XlItem.model).foldl keyIns (acc.map XlItem.model) := by
  induction l with
  | nil => intro acc; rfl
  | cons it rest ih =>
    intro acc
    simp only [List.foldl_cons, List.map_cons]
    rw [ih, dedupIns_map_model]

theorem foldl_keyIns_firstKeys : ∀ (ks seen : List (List Char)),
    ks.foldl keyIns seen = seen ++ firstKeys (ks.filter (fun x => decide (x ∉ seen))) := by
  intro ks
  induction ks with
  | nil => intro seen; simp [firstKeys]
  | cons k ks ih =>
    intro seen
    by_cases hk : k ∈ seen
    · have h1 : keyIns seen k = seen := by simp [keyIns, hk]
      rw [List.foldl_cons, h1, ih]
      have h2 : (k :: ks).filter (fun x => decide (x ∉ seen)) =
          ks.filter (fun x => decide (x ∉ seen)) := by
        simp [List.filter_cons, hk]
      rw [h2]
    · have h1 : keyIns seen k = seen ++ [k] := by simp [keyIns, hk]
      rw [List.foldl_cons, h1, ih, List.append_assoc]
      congr 1
      have h2 : (k :: ks).filter (fun x => decide (x ∉ seen)) =
          k :: ks.filter (fun x => decide (x ∉ seen)) := by
        simp [List.filter_cons, hk]
      rw [h2]
      show k :: firstKeys (ks.filter fun x => decide (x ∉ seen ++ [k])) =
        firstKeys (k :: ks.filter fun x => decide (x ∉ seen))
      rw [firstKeys, List.filter_filter]
      have h3 : (ks.filter fun x => decide (x ∉ seen ++ [k])) =
          ks.filter fun a => (!(a == k) && decide (a ∉ seen)) := by
        apply List.filter_congr
        intro x _
        by_cases h1 : x = k <;> by_cases h2 : x ∈ seen <;>
          simp [h1, h2, List.mem_append]
      rw [h3]

theorem dedupXl_map_model (l : List XlItem) :
    (dedupXl l).map XlItem.model = firstKeys (l.map XlItem.model) := by
  show ((l.foldl dedupIns []).map XlItem.model) = _
  have h0 : ([] : List XlItem).map XlItem.model = [] := rfl
  rw [foldl_dedupIns_map l [], h0, foldl_keyIns_firstKeys]
  have h1 : (l.map XlItem.model).filter (fun x => decide (x ∉ ([] : List (List Char)))) =
      (l.map XlItem.model).filter (fun _ => true) := by
    apply List.filter_congr
    intro x _
    simp
  rw [h1, List.filter_true, List.nil_append]

theorem mem_of_mem_firstKeys :
    ∀ (n : Nat) (l : List (List Char)), l.length ≤ n →
      ∀ a, a ∈ firstKeys l → a ∈ l := by
  intro n
  induction n with
  | zero =>
    intro l hl a ha
    have hnil : l = [] := List.length_eq_zero.mp (Nat.le_zero.mp hl)
    subst hnil
    simp [firstKeys] at ha
  | succ n ih =>
    intro l hl a ha
    cases l with
    | nil => simp [firstKeys] at ha
    | cons k ks =>
      rw [firstKeys] at ha
      rcases List.mem_cons.mp ha with h | h
      · subst h; exact List.mem_cons_self _ _
      · have hlen : (ks.filter (fun x => !(x == k))).length ≤ n :=
          le_trans (List.length_filter_le _ _) (Nat.le_of_succ_le_succ hl)
        have hmem := ih _ hlen a h
        exact List.mem_cons_of_mem _ ((List.mem_filter.mp hmem).1)

theorem nodup_firstKeys :
    ∀ (n : Nat) (l : List (List Char)), l.length ≤ n → (firstKeys l).Nodup := by
  intro n
  induction n with
  | zero =>
    intro l hl
    have hnil : l = [] := List.length_eq_zero.mp (Nat.le_zero.mp hl)
    subst hnil
    simp [firstKeys]
  | succ n ih =>
    intro l hl
    cases l with
    | nil => simp [firstKeys]
    | cons k ks =>
      rw [firstKeys, List.nodup_cons]
      have hlen : (ks.filter (fun x => !(x == k))).length ≤ n :=
        le_trans (List.length_filter_le _ _) (Nat.le_of_succ_le_succ hl)
      constructor
      · intro hmem
        have hks := mem_of_mem_firstKeys n _ hlen k hmem
        have := (List.mem_filter.mp hks).2
        simp at this
      · exact ih _ hlen

theorem dedupIns_length_le (acc : List XlItem) (it : XlItem) :
    (dedupIns acc it).length ≤ acc.length + 1 := by
  unfold dedupIns
  by_cases h : (acc.any fun x => x.model == it.model) = true
  · simp [h]
  · rw [Bool.not_eq_true] at h
    simp [h]

theorem foldl_dedupIns_length (l : List XlItem) : ∀ acc : List XlItem,
    (l.foldl dedupIns acc).length ≤ acc.length + l.length := by
  induction l with
  | nil => intro acc; simp
  | cons it rest ih =>
    intro acc
    rw [List.foldl_cons]
    calc (rest.foldl dedupIns (dedupIns acc it)).length
        ≤ (dedupIns acc it).length + rest.length := ih _
      _ ≤ (acc.length + 1) + rest.length :=
          Nat.add_le_add_right (dedupIns_length_le acc it) _
      _ = acc.length + (it :: rest).length := by simp [List.length_cons]; omega

theorem find?_replace_self (it : XlItem) :
    ∀ acc : List XlItem, (acc.any fun x => x.model == it.model) = true →
      (acc.map (fun x => if x.model == it.model then it else x)).find?
          (fun x => x.model == it.model) = some it := by
  intro acc
  induction acc with
  | nil => intro h; simp at h
  | cons x xs ih =>
    intro h
    by_cases hx : x.model = it.model
    · have hrx : (if (x.model == it.model) = true then it else x) = it := by
        simp [hx]
      rw [List.map_cons, hrx, List.find?_cons]
      simp
    · have hx' : (x.model == it.model) = false := by simpa using hx
      have hany : (xs.any fun y => y.model == it.model) = true := by
        rcases List.any_eq_true.mp h with ⟨y, hy, hym⟩
        rcases List.mem_cons.mp hy with rfl | hy'
        · rw [hym] at hx'; simp at hx'
        · exact List.any_eq_true.mpr ⟨y, hy', hym⟩
      have hrx : (if (x.model == it.model) = true then it else x) = x := by
        simp [hx']
      rw [List.map_cons, hrx, List.find?_cons]
      simp only [hx']
      exact ih hany

theorem find?_replace_other (it : XlItem) (k : List Char) (hk : ¬ it.model = k) :
    ∀ acc : List XlItem,
      (acc.map (fun x => if x.model == it.model then it else x)).find?
          (fun x => x.model == k) = acc.find? (fun x => x.model == k) := by
  intro acc
  induction acc with
  | nil => rfl
  | cons x xs ih =>
    by_cases hx : x.model = it.model
    · have hxk : (x.model == k) = false := by
        simp only [beq_eq_false_iff_ne]
        rw [hx]; exact hk
      have hik : (it.model == k) = false := by simpa using hk
      have hrx : (if (x.model == it.model) = true then it else x) = it := by
        simp [hx]
      rw [List.map_cons, hrx, List.find?_cons, List.find?_cons]
      simp only [hik, hxk]
      exact ih
    · have hx' : (x.model == it.model) = false := by simpa using hx
      have hrx : (if (x.model == it.model) = true then it else x) = x := by
        simp [hx']
      rw [List.map_cons, hrx, List.find?_cons, List.find?_cons]
      cases hxk : (x.model == k) with
      | true => simp only [hxk]
      | false =>
        simp only [hxk]
        exact ih

theorem find?_none_of_any_false (it : XlItem) (acc : List XlItem)
    (h : (acc.any fun x => x.model == it.model) = false) :
    acc.find? (fun x => x.model == it.model) = none := by
  rw [List.find?_eq_none]
  intro x hx hpx
  have : (acc.any fun x => x.model == it.model) = true :=
    List.any_eq_true.mpr ⟨x, hx, hpx⟩
  rw [h] at this
  exact absurd this (by simp)

theorem foldl_dedupIns_find? : ∀ (l : List XlItem) (acc : List XlItem) (k : List Char),
    (l.foldl dedupIns acc).find? (fun x => x.model == k) =
      match lastOcc k l with
      | some v => some v
      | none => acc.find? (fun x => x.model == k) := by
  intro l
  induction l with
  | nil => intro acc k; simp [lastOcc]
  | cons it rest ih =>
    intro acc k
    rw [List.foldl_cons, ih]
    cases hrest : lastOcc k rest with
    | some v => simp [lastOcc, hrest]
    | none =>
      simp only [hrest]
      by_cases hik : it.model = k
      · subst hik
        have hik' : (it.model == it.model) = true := by simp
        have hR : lastOcc it.model (it :: rest) = some it := by
          simp [lastOcc, hrest, hik']
        rw [hR]
        show List.find? (fun x => x.model == it.model) (dedupIns acc it) = some it
        unfold dedupIns
        by_cases hany : (acc.any fun x => x.model == it.model) = true
        · rw [if_pos hany]
          exact find?_replace_self it acc hany
        · rw [if_neg hany]
          rw [List.find?_append]
          have hanyF : (acc.any fun x => x.model == it.model) = false := by
            simpa using hany
          rw [find?_none_of_any_false it acc hanyF]
          simp [List.find?_cons, hik']
      · have hik' : (it.model == k) = false := by simpa using hik
        have hR : lastOcc k (it :: rest) = none := by
          simp [lastOcc, hrest, hik']
        rw [hR]
        show List.find? (fun x => x.model == k) (dedupIns acc it) =
          List.find? (fun x => x.model == k) acc
        unfold dedupIns
        by_cases hany : (acc.any fun x => x.model == it.model) = true
        · rw [if_pos hany]
          exact find?_replace_other it k hik acc
        · rw [if_neg hany]
          rw [List.find?_append]
          have h4 : List.find? (fun x => x.model == k) [it] = none := by
            simp [List.find?_cons, hik']
          rw [h4]
          exact Option.or_none

theorem dedupXl_find? (l : List XlItem) (k : List Char) :
    (dedupXl l).find? (fun x => x.model == k) = lastOcc k l := by
  show (l.foldl dedupIns []).find? (fun x => x.model == k) = _
  rw [foldl_dedupIns_find?]
  cases h : lastOcc k l with
  | some v => rfl
  | none => rfl

/- ------------------------------------------------------------------ -/
/- strip lemmas                                                        -/
/- ------------------------------------------------------------------ -/

theorem dropWhile_len_le {α : Type} (p : α → Bool) (l : List α) :
    (l.dropWhile p).length ≤ l.length := by
  induction l with
  | nil => simp
  | cons x xs ih =>
    rw [List.dropWhile_cons]
    by_cases hp : p x = true
    · rw [if_pos hp]
      exact le_trans ih (Nat.le_succ _)
    · rw [if_neg hp]

theorem dropWhile_twice {α : Type} (p : α → Bool) (l : List α) :
    (l.dropWhile p).dropWhile p = l.dropWhile p := by
  induction l with
  | nil => simp
  | cons x xs ih =>
    rw [List.dropWhile_cons]
    by_cases hp : p x = true
    · rw [if_pos hp]
      exact ih
    · rw [if_neg hp, List.dropWhile_cons, if_neg hp]

theorem dropWhile_suffix_append {α : Type} (p : α → Bool) (l : List α) :
    ∃ e, l = e ++ l.dropWhile p := by
  induction l with
  | nil => exact ⟨[], rfl⟩
  | cons x xs ih =>
    rw [List.dropWhile_cons]
    by_cases hp : p x = true
    · obtain ⟨e, he⟩ := ih
      rw [if_pos hp]
      exact ⟨x :: e, by rw [List.cons_append, ← he]⟩
    · rw [if_neg hp]
      exact ⟨[], rfl⟩

theorem head_false_of_dropWhile_self {α : Type} (p : α → Bool) (a : α) (t : List α)
    (h : (a :: t).dropWhile p = a :: t) : p a = false := by
  by_cases hp : p a = true
  · rw [List.dropWhile_cons, if_pos hp] at h
    have hlen := dropWhile_len_le p t
    rw [h] at hlen
    simp [List.length_cons] at hlen
  · simpa using hp

theorem stripL_idem (l : List Char) : stripL (stripL l) = stripL l := by
  unfold stripL
  have hC : (l.dropWhile pyIsSpace).dropWhile pyIsSpace = l.dropWhile pyIsSpace :=
    dropWhile_twice pyIsSpace l
  have hD : ((l.dropWhile pyIsSpace).reverse.dropWhile pyIsSpace).dropWhile pyIsSpace =
      (l.dropWhile pyIsSpace).reverse.dropWhile pyIsSpace :=
    dropWhile_twice pyIsSpace (l.dropWhile pyIsSpace).reverse
  have h1 : ((l.dropWhile pyIsSpace).reverse.dropWhile pyIsSpace).reverse.dropWhile pyIsSpace =
      ((l.dropWhile pyIsSpace).reverse.dropWhile pyIsSpace).reverse := by
    cases hrev : ((l.dropWhile pyIsSpace).reverse.dropWhile pyIsSpace).reverse with
    | nil => simp
    | cons a t =>
      obtain ⟨e, he⟩ := dropWhile_suffix_append pyIsSpace (l.dropWhile pyIsSpace).reverse
      have hCeq : l.dropWhile pyIsSpace =
          ((l.dropWhile pyIsSpace).reverse.dropWhile pyIsSpace).reverse ++ e.reverse := by
        have h2 := congrArg List.reverse he
        simpa [List.reverse_append] using h2
      have hCcons : l.dropWhile pyIsSpace = a :: (t ++ e.reverse) := by
        rw [hCeq, hrev]
        simp
      have hCd : (l.dropWhile pyIsSpace).dropWhile pyIsSpace = l.dropWhile pyIsSpace := hC
      rw [hCcons] at hCd
      have hpa : pyIsSpace a = false := head_false_of_dropWhile_self pyIsSpace _ _ hCd
      rw [List.dropWhile_cons, if_neg (by simp [hpa])]
  rw [h1, List.reverse_reverse, hD]

/- ------------------------------------------------------------------ -/
/- parse_sheet row lemmas                                              -/
/- ------------------------------------------------------------------ -/

theorem parseRow_facts (name : List Char) (r : XlRow) (it : XlItem)
    (h : parseRow name r = some it) :
    (∃ c0 rest, r = c0 :: rest ∧ cellTruthy c0 = true ∧
      it.model = stripL (cellStr c0)) ∧
    it.model ≠ [] ∧ it.raw.length ≤ 200 ∧ it.category = name.map pyLower := by
  cases r with
  | nil => simp [parseRow] at h
  | cons c0 r1 =>
    cases r1 with
    | nil => simp [parseRow] at h
    | cons c1 r2 =>
      cases r2 with
      | nil => simp [parseRow] at h
      | cons c2 rest =>
        simp only [parseRow] at h
        by_cases ht : cellTruthy c0 = true
        · rw [if_pos ht] at h
          by_cases hm : ((stripL (cellStr c0)).isEmpty ||
              !containsTok ['N', 'R', 'G'] ((stripL (cellStr c0)).map pyUpper)) = true
          · rw [if_pos hm] at h
            exact absurd h (by simp)
          · rw [if_neg hm] at h
            have hit := Option.some.inj h
            have hne : (stripL (cellStr c0)).isEmpty = false := by
              cases he : (stripL (cellStr c0)).isEmpty with
              | false => rfl
              | true => rw [he] at hm; simp at hm
            subst hit
            refine ⟨⟨c0, c1 :: c2 :: rest, rfl, ht, rfl⟩, ?_, ?_, rfl⟩
            · intro hnil
              have hnil2 : stripL (cellStr c0) = [] := hnil
              rw [hnil2] at hne
              simp at hne
            · show ((cellStr c2).take 200).length ≤ 200
              rw [List.length_take]
              exact min_le_left _ _
        · rw [if_neg ht] at h
          exact absurd h (by simp)

theorem parseRow_some_hasId (name : List Char) (r : XlRow) (it : XlItem)
    (h : parseRow name r = some it) : rowHasId r = true := by
  obtain ⟨⟨c0, rest, hr, ht, -⟩, -, -, -⟩ := parseRow_facts name r it h
  rw [hr]
  exact ht

theorem parse_sheet_length_le (name : List Char) :
    ∀ rows : List XlRow,
      (parse_sheet rows name).length ≤ (rows.filter rowHasId).length := by
  intro rows
  induction rows with
  | nil => simp [parse_sheet]
  | cons r rest ih =>
    show (List.filterMap (parseRow name) (r :: rest)).length ≤ _
    rw [List.filterMap_cons]
    cases hr : parseRow name r with
    | none =>
      rw [List.filter_cons]
      by_cases hid : rowHasId r = true
      · rw [if_pos hid]
        exact le_trans ih (by simp)
      · rw [if_neg hid]
        exact ih
    | some it =>
      have hid := parseRow_some_hasId name r it hr
      rw [List.filter_cons, if_pos hid]
      simpa using ih

/- ------------------------------------------------------------------ -/
/- pdf pipeline lemmas                                                 -/
/- ------------------------------------------------------------------ -/

theorem pdfRecords_foldl_acc (lines : List (List Char)) : ∀ acc : List PdfItem,
    lines.foldl
        (fun cat line => if hasCatalogTok line then cat ++ [parse_line line] else cat)
        acc =
      acc ++ (lines.filter hasCatalogTok).map parse_line := by
  induction lines with
  | nil => intro acc; simp
  | cons l rest ih =>
    intro acc
    rw [List.foldl_cons]
    by_cases h : hasCatalogTok l = true
    · rw [if_pos h, ih, List.filter_cons, if_pos h]
      simp
    · rw [if_neg h, ih, List.filter_cons, if_neg h]

theorem pdfRecords_eq_filter_map (lines : List (List Char)) :
    pdfRecords lines = (lines.filter hasCatalogTok).map parse_line := by
  have h := pdfRecords_foldl_acc lines []
  simpa [pdfRecords] using h

/- ------------------------------------------------------------------ -/
/- Claim theorems                                                      -/
/- ------------------------------------------------------------------ -/

/-- Claim C1: the Deduplicator keeps every key at the position of its first
occurrence (the output key sequence is the input key sequence with later
repetitions removed), takes each key's field values from the last record
carrying that key, emits unique keys, and never lengthens the sequence.
In the duplicate-key scenario of the spec (NRG-A at position 3 with power
50 and at position 10 with power 80) the output holds exactly one NRG-A
record, in position 3's slot, with power 80. -/
theorem dedup_firstPos_lastVal :
    (∀ l : List XlItem,
        ((dedupXl l).map XlItem.model).Nodup ∧
        (dedupXl l).length ≤ l.length ∧
        (dedupXl l).map XlItem.model = firstKeys (l.map XlItem.model) ∧
        (∀ k, (dedupXl l).find? (fun x => x.model == k) = lastOcc k l)) ∧
    (dedupXl dupInput).get? 3 = some (mkX "NRG-A" (some 80)) ∧
    ((dedupXl dupInput).filter (fun x => x.model == "NRG-A".toList)).length = 1 ∧
    (dedupXl dupInput).length = 10 := by
  refine ⟨fun l => ⟨?_, ?_, dedupXl_map_model l, fun k => dedupXl_find? l k⟩,
    ?_, ?_, ?_⟩
  · rw [dedupXl_map_model]
    exact nodup_firstKeys (l.map XlItem.model).length _ (le_refl _)
  · show (l.foldl dedupIns []).length ≤ l.length
    have h := foldl_dedupIns_length l []
    simpa using h
  · rfl
  · rfl
  · rfl

/-- Claim C2 counterexample: the text pipeline emits a record for the line
`100Вт`, which carries no identifier — the emitted record has a null model,
so rows without an identifier are not always filtered out. -/
theorem pdf_emits_model_none :
    (pdfRecords [noModelLine]).map PdfItem.model = [none] := by rfl

/-- Claim C2 (amended): in the tabular pipeline, every emitted record has a
non-empty, trimmed model, and the output length is at most the number of
input rows whose identifier cell is non-empty.  The text pipeline filters
lines by unit token, not by identifier, and can emit records with a null
model (see the counterexample). -/
theorem excel_rows_without_id_filtered (name : List Char) (rows : List XlRow) :
    (parse_sheet rows name).length ≤ (rows.filter rowHasId).length ∧
    ∀ it ∈ parse_sheet rows name, it.model ≠ [] ∧ stripL it.model = it.model := by
  refine ⟨parse_sheet_length_le name rows, ?_⟩
  intro it hit
  obtain ⟨r, hr, hrow⟩ := List.mem_filterMap.mp hit
  obtain ⟨⟨c0, rest, hre, ht, hmodel⟩, hne, -, -⟩ := parseRow_facts name r it hrow
  refine ⟨hne, ?_⟩
  rw [hmodel]
  exact stripL_idem _

theorem excel_rows_without_id_filtered_witness :
    itemPlain.model ≠ [] ∧ stripL itemPlain.model = itemPlain.model :=
  (excel_rows_without_id_filtered ['S'] [plainRow]).2 itemPlain (by decide)

/-- Claim C3 counterexample: the tabular extractor's pattern knows only the
localized unit token `вт`, so the spec text `100W` yields no power there,
refuting the claim that both extractors yield 100 for `100W`. -/
theorem excel_power_latin_w_none :
    (parse_sheet [rowLatinW] ['S']).map XlItem.power_w = [none] := by rfl

/-- Claim C3 (amended): in the text-mode extractor, a spec text whose first
(leftmost) integer-plus-power-unit match (`Вт` or `W`, case-insensitive,
at most one blank between) reads 100 yields power_w = 100.  The
tabular-mode extractor recognises only the localized token `вт`: texts
whose first `вт` match reads 100 yield 100 there, while texts with no
`вт` match at all (such as plain `100W`) yield no power. -/
theorem power_extraction_unit_tokens (t : List Char) :
    (∀ i, i ≤ (t.map pyLower).length →
        numTokAt (afterOpt1 powUnitsPdf) ((t.map pyLower).drop i) = some 100 →
        (∀ j, j < i → numTokAt (afterOpt1 powUnitsPdf) ((t.map pyLower).drop j) = none) →
        (parse_line t).power_w = some 100) ∧
    (∀ i, i ≤ (t.map pyLower).length →
        numTokAt (afterStar [tokVt]) ((t.map pyLower).drop i) = some 100 →
        (∀ j, j < i → numTokAt (afterStar [tokVt]) ((t.map pyLower).drop j) = none) →
        xlPower t = some 100) ∧
    ((∀ i, i ≤ (t.map pyLower).length →
        numTokAt (afterStar [tokVt]) ((t.map pyLower).drop i) = none) →
      xlPower t = none) := by
  refine ⟨?_, ?_, ?_⟩
  · intro i hi hm hmin
    show pdfPower t = some 100
    exact (scanO_some_iff _ _ _).mpr ⟨i, hi, hm, hmin⟩
  · intro i hi hm hmin
    exact (scanO_some_iff _ _ _).mpr ⟨i, hi, hm, hmin⟩
  · intro h
    exact (scanO_eq_none_iff _ _).mpr h

theorem power_extraction_unit_tokens_witness :
    (parse_line ("100 Вт".toList)).power_w = some 100 ∧
    xlPower ("100 вт".toList) = some 100 ∧
    xlPower ("100W".toList) = none :=
  ⟨(power_extraction_unit_tokens ("100 Вт".toList)).1 0 (by decide) (by decide)
      (fun j hj => absurd hj (Nat.not_lt_zero j)),
   (power_extraction_unit_tokens ("100 вт".toList)).2.1 0 (by decide) (by decide)
      (fun j hj => absurd hj (Nat.not_lt_zero j)),
   (power_extraction_unit_tokens ("100W".toList)).2.2 (by decide)⟩

/-- Claim C4: dimensions are all-or-nothing: the extractor yields a value
exactly when three integers separated by `x`/`×` and immediately followed
by a millimeter token (`мм`/`mm`, up to one blank) occur somewhere in the
text; when the first such occurrence reads (a, b, c) the result is that
object; `600x200x100мм` yields {600, 200, 100} and the same three numbers
with no unit token yield null. -/
theorem dims_all_or_nothing (t : List Char) :
    (((parse_line t).dimensions_mm).isSome = true ↔
      ∃ i, i ≤ (t.map pyLower).length ∧
        (dimsAt ((t.map pyLower).drop i)).isSome = true) ∧
    (∀ a b c i, i ≤ (t.map pyLower).length →
      dimsAt ((t.map pyLower).drop i) = some (a, b, c) →
      (∀ j, j < i → dimsAt ((t.map pyLower).drop j) = none) →
      (parse_line t).dimensions_mm = some ⟨a, b, c⟩) ∧
    (parse_line ("600x200x100мм".toList)).dimensions_mm = some ⟨600, 200, 100⟩ ∧
    (parse_line ("600x200x100".toList)).dimensions_mm = none := by
  refine ⟨?_, ?_, by rfl, by rfl⟩
  · show ((scanO dimsAt (t.map pyLower)).map
        (fun v => (⟨v.1, v.2.1, v.2.2⟩ : DimsMM))).isSome = true ↔ _
    rw [Option.isSome_map']
    exact scanO_isSome_iff dimsAt (t.map pyLower)
  · intro a b c i hi hm hmin
    show (scanO dimsAt (t.map pyLower)).map
        (fun v => (⟨v.1, v.2.1, v.2.2⟩ : DimsMM)) = some ⟨a, b, c⟩
    rw [(scanO_some_iff dimsAt (a, b, c) (t.map pyLower)).mpr ⟨i, hi, hm, hmin⟩]
    rfl

theorem dims_all_or_nothing_witness :
    (parse_line ("600x200x100 mm".toList)).dimensions_mm = some ⟨600, 200, 100⟩ :=
  (dims_all_or_nothing ("600x200x100 mm".toList)).2.1 600 200 100 0 (by decide)
    (by decide) (fun j hj => absurd hj (Nat.not_lt_zero j))

/-- Claim C5: the extracted category is the first entry of the fixed,
ordered vocabulary list that occurs anywhere in the text
(case-insensitive): it is null exactly when no vocabulary term occurs, and
when it is `c`, `c` occurs in the text and every vocabulary entry listed
before `c` does not — list order, not text position, breaks ties, so in
"прожектор промышленный" the earlier-listed "промышленный" wins although
"прожектор" appears first in the text. -/
theorem category_first_listed_wins (t : List Char) :
    ((parse_line t).category = none ↔
      ∀ c ∈ categoriesL, containsTok c (t.map pyLower) = false) ∧
    (∀ c, (parse_line t).category = some c →
      c ∈ categoriesL ∧ containsTok c (t.map pyLower) = true ∧
      ∃ i, ∃ h : i < categoriesL.length, categoriesL.get ⟨i, h⟩ = c ∧
        ∀ j, ∀ hj : j < categoriesL.length, j < i →
          containsTok (categoriesL.get ⟨j, hj⟩) (t.map pyLower) = false) ∧
    (parse_line ("прожектор промышленный".toList)).category =
      some ("промышленный".toList) := by
  refine ⟨?_, ?_, by rfl⟩
  · show categoriesL.find? (fun c => containsTok c (t.map pyLower)) = none ↔ _
    rw [List.find?_eq_none]
    constructor
    · intro h c hc
      have := h c hc
      simpa using this
    · intro h c hc
      rw [h c hc]
      simp
  · intro c hc
    have hfind : categoriesL.find? (fun c => containsTok c (t.map pyLower)) = some c := hc
    obtain ⟨hp, i, hlen, hget, hmin⟩ := find?_first_index _ _ _ hfind
    exact ⟨List.mem_of_find?_eq_some hfind, hp, i, hlen, hget, hmin⟩

theorem category_first_listed_wins_witness :
    "офисный".toList ∈ categoriesL ∧
    containsTok ("офисный".toList) (("светильник офисный".toList).map pyLower) = true := by
  have h := (category_first_listed_wins ("светильник офисный".toList)).2.1
    ("офисный".toList) (by rfl)
  exact ⟨h.1, h.2.1⟩

/-- Claim C6 counterexample: a 201-character line that passes the token
filter is stored in the text-mode record with a raw preview of length 201,
refuting the 200-character cap for the text pipeline. -/
theorem pdf_raw_unbounded :
    (pdfRecords [longLine]).map (fun r => r.raw.length) = [201] := by rfl

/-- Claim C6 (amended): only the tabular pipeline caps the stored raw-text
preview at 200 characters; the text pipeline stores the whole stripped
line, unbounded (see the counterexample). -/
theorem excel_raw_capped (name : List Char) (rows : List XlRow) :
    ∀ it ∈ parse_sheet rows name, it.raw.length ≤ 200 := by
  intro it hit
  obtain ⟨r, hr, hrow⟩ := List.mem_filterMap.mp hit
  exact (parseRow_facts name r it hrow).2.2.1

theorem excel_raw_capped_witness : itemPlain.raw.length ≤ 200 :=
  excel_raw_capped ['S'] [plainRow] itemPlain (by decide)

/-- Claim C7: the Image Locator returns the first anchor in discovery order
whose row equals the target and whose column equals the configured image
column; it returns none exactly when no anchor satisfies both, and
appending further anchors after a hit (duplicates on the same cell
included) never changes the result — later ones are ignored. -/
theorem anchor_first_match (anchors : List Anchor) (r c : Nat) :
    (findAnchor anchors r c = none ↔
      ∀ a ∈ anchors, ¬(a.row = r ∧ a.col = c)) ∧
    (∀ a, findAnchor anchors r c = some a →
      (a.row = r ∧ a.col = c) ∧
      ∃ i, ∃ h : i < anchors.length, anchors.get ⟨i, h⟩ = a ∧
        ∀ j, ∀ hj : j < anchors.length, j < i →
          ¬((anchors.get ⟨j, hj⟩).row = r ∧ (anchors.get ⟨j, hj⟩).col = c)) ∧
    (∀ bs a, findAnchor anchors r c = some a →
      findAnchor (anchors ++ bs) r c = some a) := by
  refine ⟨?_, ?_, ?_⟩
  · show anchors.find? (fun a => a.row == r && a.col == c) = none ↔ _
    rw [List.find?_eq_none]
    constructor
    · intro h a ha
      have := h a ha
      simpa using this
    · intro h a ha
      have := h a ha
      simpa using this
  · intro a ha
    obtain ⟨hp, i, hlen, hget, hmin⟩ := find?_first_index _ _ _ ha
    refine ⟨by simpa using hp, i, hlen, hget, ?_⟩
    intro j hj hji
    have := hmin j hj hji
    simpa using this
  · intro bs a ha
    have ha2 : anchors.find? (fun a => a.row == r && a.col == c) = some a := ha
    show (anchors ++ bs).find? (fun a => a.row == r && a.col == c) = some a
    rw [List.find?_append, ha2]
    rfl

theorem anchor_first_match_witness :
    findAnchor (anchors3 ++ [⟨9, 9, [4]⟩]) 5 1 = some ⟨5, 1, [2]⟩ :=
  (anchor_first_match anchors3 5 1).2.2 [⟨9, 9, [4]⟩] ⟨5, 1, [2]⟩ (by rfl)

/-- Claim C8: when the backing input document is missing the run aborts
before producing any output — no record collection is ever returned — and
the diagnostic carries the candidate files found in the working
directory. -/
theorem missing_input_no_output (dirFiles : List (List Char))
    (sheets : List (List Char × List XlRow)) :
    excel_to_json false dirFiles sheets = Except.error dirFiles ∧
    ∀ out, excel_to_json false dirFiles sheets ≠ Except.ok out := by
  constructor
  · rfl
  · intro out h
    simp [excel_to_json] at h

theorem missing_input_no_output_witness :
    excel_to_json false ["other.xlsx".toList] [(['S'], [plainRow])] =
      Except.error ["other.xlsx".toList] :=
  (missing_input_no_output ["other.xlsx".toList] [(['S'], [plainRow])]).1

/-- Claim C9: in text mode a line produces a record exactly when it
contains a power, luminous-flux or IP token (`Вт`, `W`, `лм`, `lm`, or
`IP` plus two digits, case-insensitive): the pipeline is the token filter
followed by the field extractor, a single line yields one record when the
token test passes and none otherwise, and a line carrying only dimensions,
weight and warranty tokens is dropped although its fields would have
parsed. -/
theorem line_filter_token_iff :
    (∀ lines, pdfRecords lines = (lines.filter hasCatalogTok).map parse_line) ∧
    (∀ line, (pdfRecords [line]).length = if hasCatalogTok line then 1 else 0) ∧
    pdfRecords ["600x200x100мм 5кг Гарантия 5 лет".toList] = [] ∧
    (parse_line ("600x200x100мм 5кг Гарантия 5 лет".toList)).dimensions_mm =
      some ⟨600, 200, 100⟩ ∧
    (parse_line ("600x200x100мм 5кг Гарантия 5 лет".toList)).weight_kg =
      some ['5'] ∧
    (parse_line ("600x200x100мм 5кг Гарантия 5 лет".toList)).warranty_years =
      some 5 := by
  refine ⟨pdfRecords_eq_filter_map, ?_, by rfl, by rfl, by rfl, by rfl⟩
  intro line
  rw [pdfRecords_eq_filter_map]
  by_cases h : hasCatalogTok line = true
  · rw [if_pos h]
    simp [List.filter_cons, h]
  · rw [if_neg h]
    simp [List.filter_cons, h]

/-- Claim C10 counterexample: the sheets named `A` and `a` are differently
named, yet the same row receives the same category `a` on both, refuting
the claim that differently named sheets always give different
categories. -/
theorem sheet_case_same_category :
    (parse_sheet [plainRow] ("A".toList)).map XlItem.category = [['a']] ∧
    (parse_sheet [plainRow] ("a".toList)).map XlItem.category = [['a']] :=
  ⟨rfl, rfl⟩

/-- Claim C10 (amended): in tabular mode every emitted record's category is
the lowercased worksheet name — never derived from the spec text's
vocabulary and always present — and two identical rows on sheets whose
lowercased names differ receive different categories (names differing only
in letter case collide, see the counterexample). -/
theorem category_from_sheet_name (n1 n2 : List Char) (rows : List XlRow) :
    (∀ it ∈ parse_sheet rows n1, it.category = n1.map pyLower) ∧
    (∀ it1 ∈ parse_sheet rows n1, ∀ it2 ∈ parse_sheet rows n2,
      n1.map pyLower ≠ n2.map pyLower → it1.category ≠ it2.category) := by
  have hcat : ∀ (n : List Char) it, it ∈ parse_sheet rows n →
      it.category = n.map pyLower := by
    intro n it hit
    obtain ⟨r, hr, hrow⟩ := List.mem_filterMap.mp hit
    exact (parseRow_facts n r it hrow).2.2.2
  refine ⟨fun it hit => hcat n1 it hit, ?_⟩
  intro it1 h1 it2 h2 hne
  rw [hcat n1 it1 h1, hcat n2 it2 h2]
  exact hne

theorem category_from_sheet_name_witness :
    itemPlain.category = (['S'] : List Char).map pyLower :=
  (category_from_sheet_name ['S'] ['T'] [plainRow]).1 itemPlain (by decide)
